import Mathlib

/-!
Shallow embedding of the mapping utilities of the audio-reactive-visuals
repository (source: the module of `lerp`, `getFrameIndex`, `getFrameAtTime`,
`getDominantPitch`, `createSmoother`, `createObjectSmoother`).

Numbers are modelled by `ℚ` (exact arithmetic standing for JS numbers).
An analysis frame is a record of the feature fields read by
`getFrameAtTime`.  The JS `while` loop of the binary search is embedded
as a structurally recursive function with a fuel argument; fuel
`frames.length` strictly bounds the number of iterations (the interval
`high - low` shrinks every step from an initial value of at most
`frames.length - 1`), so the fuelled function agrees with the loop.
-/

namespace AudioReactive

/-- An analysis frame: the fields `getFrameAtTime` reads and produces. -/
structure Frame where
  time : ℚ
  rms : ℚ
  centroid : ℚ
  centroid_hz : ℚ
  contrast : ℚ
  onset : ℚ
  harmonic : ℚ
  percussive : ℚ
  bands : List ℚ
  chroma : List ℚ
  deriving DecidableEq, Repr, Inhabited

/-- `lerp(current, target, factor) = current + (target - current) * factor`. -/
def lerp (current target factor : ℚ) : ℚ :=
  current + (target - current) * factor

/-- The body of the binary-search `while` loop of `getFrameIndex`,
with a fuel argument bounding the number of iterations. -/
def searchGo (frames : List Frame) (time : ℚ) : Nat → Nat → Nat → Nat
  | 0, low, _ => low
  | fuel + 1, low, high =>
    if low < high then
      if (frames.getD ((low + high + 1) / 2) default).time ≤ time then
        searchGo frames time fuel ((low + high + 1) / 2) high
      else
        searchGo frames time fuel low ((low + high + 1) / 2 - 1)
    else low

/-- `getFrameIndex(frames, time)`: 0 for an empty array, else the
binary search from `low = 0`, `high = frames.length - 1`. -/
def getFrameIndex (frames : List Frame) (time : ℚ) : Nat :=
  if frames.length = 0 then 0
  else searchGo frames time frames.length 0 (frames.length - 1)

/-- The interpolated object literal built in the final `return` of
`getFrameAtTime`, with `t = (time - frame.time) / (nextFrame.time -
frame.time)`.  `bands`/`chroma` follow the JS `frame.bands.map((v, i) =>
lerp(v, nextFrame.bands[i], t))`: the length is that of `frame`'s vector,
indexing into `nextFrame`'s. -/
def interpFrame (frame nextFrame : Frame) (time : ℚ) : Frame :=
  let t := (time - frame.time) / (nextFrame.time - frame.time)
  { time := time
    rms := lerp frame.rms nextFrame.rms t
    centroid := lerp frame.centroid nextFrame.centroid t
    centroid_hz := lerp frame.centroid_hz nextFrame.centroid_hz t
    contrast := lerp frame.contrast nextFrame.contrast t
    onset := lerp frame.onset nextFrame.onset t
    harmonic := lerp frame.harmonic nextFrame.harmonic t
    percussive := lerp frame.percussive nextFrame.percussive t
    bands := frame.bands.mapIdx (fun i v => lerp v (nextFrame.bands.getD i 0) t)
    chroma := frame.chroma.mapIdx (fun i v => lerp v (nextFrame.chroma.getD i 0) t) }

/-- `getFrameAtTime(frames, time)`: `null` on an empty array; the located
frame verbatim when it is the last frame or an exact time match; otherwise
linear interpolation between the located frame and the next one. -/
def getFrameAtTime (frames : List Frame) (time : ℚ) : Option Frame :=
  if frames.length = 0 then none
  else
    let idx := getFrameIndex frames time
    let frame := frames.getD idx default
    if frames.length - 1 ≤ idx ∨ frame.time = time then
      some frame
    else
      some (interpFrame frame (frames.getD (idx + 1) default) time)

/-- Frame times strictly ascending by index (bounded quantifiers keep the
predicate decidable on concrete lists). -/
def StrictlySorted (frames : List Frame) : Prop :=
  ∀ j, j < frames.length → ∀ i, i < j →
    (frames.getD i default).time < (frames.getD j default).time

/-- Frame times monotone (non-strict) by index. -/
def SortedLE (frames : List Frame) : Prop :=
  ∀ j, j < frames.length → ∀ i, i ≤ j →
    (frames.getD i default).time ≤ (frames.getD j default).time

instance (frames : List Frame) : Decidable (StrictlySorted frames) := by
  unfold StrictlySorted; infer_instance

instance (frames : List Frame) : Decidable (SortedLE frames) := by
  unfold SortedLE; infer_instance

theorem StrictlySorted.sortedLE {frames : List Frame}
    (h : StrictlySorted frames) : SortedLE frames := by
  intro j hj i hij
  rcases Nat.eq_or_lt_of_le hij with rfl | hlt
  · exact le_refl _
  · exact le_of_lt (h j hj i hlt)

/-- Invariant-based correctness of the fuelled binary-search loop:
the result stays in `[low, high]`, its time is `≤ time` (unless it is 0),
and every later index has time `> time`. -/
theorem searchGo_spec (frames : List Frame) (time : ℚ) (hs : SortedLE frames) :
    ∀ fuel low high, high - low ≤ fuel → low ≤ high → high < frames.length →
      (low = 0 ∨ (frames.getD low default).time ≤ time) →
      (∀ j, high < j → j < frames.length →
        time < (frames.getD j default).time) →
      low ≤ searchGo frames time fuel low high ∧
      searchGo frames time fuel low high ≤ high ∧
      (searchGo frames time fuel low high = 0 ∨
        (frames.getD (searchGo frames time fuel low high) default).time ≤ time) ∧
      (∀ j, searchGo frames time fuel low high < j → j < frames.length →
        time < (frames.getD j default).time) := by
  intro fuel
  induction fuel with
  | zero =>
    intro low high hfuel hle hlen hlow hhi
    have hlh : low = high := by omega
    subst hlh
    have heq : searchGo frames time 0 low low = low := rfl
    rw [heq]
    exact ⟨le_refl _, le_refl _, hlow, hhi⟩
  | succ f ih =>
    intro low high hfuel hle hlen hlow hhi
    by_cases hlh : low < high
    · have hmid1 : low + 1 ≤ (low + high + 1) / 2 := by omega
      have hmid2 : (low + high + 1) / 2 ≤ high := by omega
      rw [searchGo, if_pos hlh]
      by_cases hcmp : (frames.getD ((low + high + 1) / 2) default).time ≤ time
      · rw [if_pos hcmp]
        obtain ⟨h1, h2, h3, h4⟩ := ih ((low + high + 1) / 2) high (by omega)
          (by omega) hlen (Or.inr hcmp) hhi
        exact ⟨by omega, h2, h3, h4⟩
      · rw [if_neg hcmp]
        push_neg at hcmp
        have hside : ∀ j, (low + high + 1) / 2 - 1 < j → j < frames.length →
            time < (frames.getD j default).time := by
          intro j hj hjlen
          have hmj : (low + high + 1) / 2 ≤ j := by omega
          exact lt_of_lt_of_le hcmp (hs j hjlen _ hmj)
        obtain ⟨h1, h2, h3, h4⟩ := ih low ((low + high + 1) / 2 - 1) (by omega)
          (by omega) (by omega) hlow hside
        exact ⟨h1, by omega, h3, h4⟩
    · rw [searchGo, if_neg hlh]
      have : low = high := by omega
      subst this
      exact ⟨le_refl _, le_refl _, hlow, hhi⟩

/-- `getFrameIndex` on a non-empty sorted array returns the position of
the last frame whose time is `≤ time` (index 0 when there is none). -/
theorem getFrameIndex_spec (frames : List Frame) (time : ℚ)
    (hs : SortedLE frames) (hne : frames ≠ []) :
    getFrameIndex frames time ≤ frames.length - 1 ∧
    (getFrameIndex frames time = 0 ∨
      (frames.getD (getFrameIndex frames time) default).time ≤ time) ∧
    (∀ j, getFrameIndex frames time < j → j < frames.length →
      time < (frames.getD j default).time) := by
  have hlen : 0 < frames.length := List.length_pos.mpr hne
  have hlen0 : frames.length ≠ 0 := by omega
  unfold getFrameIndex
  rw [if_neg hlen0]
  have h := searchGo_spec frames time hs frames.length 0 (frames.length - 1)
    (by omega) (by omega) (by omega) (Or.inl rfl)
    (by intro j hj hjlen; omega)
  exact ⟨h.2.1, h.2.2.1, h.2.2.2⟩

theorem getFrameIndex_exact (frames : List Frame) (i : Nat)
    (hs : StrictlySorted frames) (hi : i < frames.length) :
    getFrameIndex frames (frames.getD i default).time = i := by
  have hne : frames ≠ [] := by
    intro h; subst h; simp at hi
  obtain ⟨h1, h2, h3⟩ := getFrameIndex_spec frames
    (frames.getD i default).time hs.sortedLE hne
  set r := getFrameIndex frames (frames.getD i default).time with hr
  by_cases hlt : r < i
  · exact absurd (h3 i hlt hi) (lt_irrefl _)
  · rcases Nat.lt_or_ge i r with hgt | hge
    · have hrlen : r < frames.length := by omega
      have hir := hs r hrlen i hgt
      rcases h2 with h0 | hle
      · omega
      · exact absurd (lt_of_lt_of_le hir hle) (lt_irrefl _)
    · omega

theorem getFrameIndex_last (frames : List Frame) (time : ℚ)
    (hs : SortedLE frames) (hne : frames ≠ [])
    (hlast : (frames.getD (frames.length - 1) default).time ≤ time) :
    getFrameIndex frames time = frames.length - 1 := by
  have hlen : 0 < frames.length := List.length_pos.mpr hne
  obtain ⟨h1, h2, h3⟩ := getFrameIndex_spec frames time hs hne
  by_cases hlt : getFrameIndex frames time < frames.length - 1
  · have := h3 (frames.length - 1) hlt (by omega)
    exact absurd (lt_of_le_of_lt hlast this) (lt_irrefl _)
  · omega

theorem getFrameIndex_between (frames : List Frame) (time : ℚ) (i : Nat)
    (hs : SortedLE frames) (hi1 : i + 1 < frames.length)
    (hlo : (frames.getD i default).time ≤ time)
    (hhi : time < (frames.getD (i + 1) default).time) :
    getFrameIndex frames time = i := by
  have hne : frames ≠ [] := by
    intro h; subst h; simp at hi1
  obtain ⟨h1, h2, h3⟩ := getFrameIndex_spec frames time hs hne
  set r := getFrameIndex frames time with hr
  by_cases hlt : r < i
  · exact absurd (lt_of_le_of_lt hlo (h3 i hlt (by omega))) (lt_irrefl _)
  · rcases Nat.lt_or_ge i r with hgt | hge
    · have hrlen : r < frames.length := by omega
      have hmono := hs r hrlen (i + 1) (by omega)
      rcases h2 with h0 | hle
      · omega
      · exact absurd (lt_of_lt_of_le hhi (le_trans hmono hle)) (lt_irrefl _)
    · omega

theorem getFrameIndex_before (frames : List Frame) (time : ℚ)
    (hs : SortedLE frames) (hne : frames ≠ [])
    (hbefore : time < (frames.getD 0 default).time) :
    getFrameIndex frames time = 0 := by
  have hlen : 0 < frames.length := List.length_pos.mpr hne
  obtain ⟨h1, h2, h3⟩ := getFrameIndex_spec frames time hs hne
  rcases h2 with h0 | hle
  · exact h0
  · have hmono := hs (getFrameIndex frames time) (by omega) 0 (Nat.zero_le _)
    exact absurd (lt_of_lt_of_le hbefore (le_trans hmono hle)) (lt_irrefl _)

/-- Two concrete frames used to instantiate hypotheses of the claim
theorems at explicit inputs. -/
def frameA : Frame := ⟨1, 0, 10, 100, 0, 0, 0, 0, [0, 2], [0]⟩

def frameB : Frame := ⟨3, 1, 20, 200, 1, 1, 1, 1, [1, 4], [1]⟩

/-- C6: `getFrameAtTime` returns `null` exactly on an empty frame array;
on any non-empty array and any query time it returns a snapshot (the
function is total: the embedding returns `some _`, modelling that the JS
function never throws). -/
theorem getFrameAtTime_none_iff (frames : List Frame) (t : ℚ) :
    getFrameAtTime frames t = none ↔ frames = [] := by
  cases frames with
  | nil => simp [getFrameAtTime]
  | cons f fs =>
    constructor
    · intro hc
      simp only [getFrameAtTime, List.length_cons] at hc
      rw [if_neg (by omega)] at hc
      split at hc <;> simp_all
    · intro hc
      simp at hc

/-- C1: on a frame array with strictly ascending times, querying at the
exact stored time of `frames[i]` returns that frame verbatim: every
feature field (rms, centroid, contrast, onset, harmonic, percussive, and
the whole bands and chroma vectors) equals the corresponding value of
`frames[i]`. -/
theorem getFrameAtTime_exact_match (frames : List Frame) (i : Nat)
    (hs : StrictlySorted frames) (hi : i < frames.length) :
    getFrameAtTime frames (frames.getD i default).time =
      some (frames.getD i default) := by
  have hne : frames.length ≠ 0 := by omega
  unfold getFrameAtTime
  rw [if_neg hne, getFrameIndex_exact frames i hs hi, if_pos (Or.inr rfl)]

theorem getFrameAtTime_exact_match_witness :
    StrictlySorted [frameA, frameB] ∧ 1 < ([frameA, frameB] : List Frame).length ∧
      getFrameAtTime [frameA, frameB]
        (([frameA, frameB] : List Frame).getD 1 default).time =
        some (([frameA, frameB] : List Frame).getD 1 default) :=
  ⟨by decide, by decide,
    getFrameAtTime_exact_match [frameA, frameB] 1 (by decide) (by decide)⟩

/-- C3: on a frame array with ascending times, for any query time at or
past the last frame's time, `getFrameAtTime` returns the last frame
verbatim: there is no extrapolation past the last sample. -/
theorem getFrameAtTime_after_last (frames : List Frame) (t : ℚ)
    (hs : SortedLE frames) (hne : frames ≠ [])
    (hlast : (frames.getD (frames.length - 1) default).time ≤ t) :
    getFrameAtTime frames t =
      some (frames.getD (frames.length - 1) default) := by
  have hlen : 0 < frames.length := List.length_pos.mpr hne
  unfold getFrameAtTime
  rw [if_neg (by omega), getFrameIndex_last frames t hs hne hlast,
    if_pos (Or.inl (le_refl _))]

theorem getFrameAtTime_after_last_witness :
    SortedLE [frameA, frameB] ∧ ([frameA, frameB] : List Frame) ≠ [] ∧
      (([frameA, frameB] : List Frame).getD 1 default).time ≤ 7 ∧
      getFrameAtTime [frameA, frameB] 7 =
        some (([frameA, frameB] : List Frame).getD 1 default) :=
  ⟨by decide, by decide, by decide,
    getFrameAtTime_after_last [frameA, frameB] 7 (by decide) (by decide)
      (by decide)⟩

/-- `x` lies in the closed interval spanned by `a` and `b`. -/
def Between (a b x : ℚ) : Prop := min a b ≤ x ∧ x ≤ max a b

theorem lerp_between (a b s : ℚ) (h0 : 0 ≤ s) (h1 : s ≤ 1) :
    Between a b (lerp a b s) := by
  unfold Between lerp
  rcases le_total a b with hab | hab
  · rw [min_eq_left hab, max_eq_right hab]
    constructor <;> nlinarith
  · rw [min_eq_right hab, max_eq_left hab]
    constructor <;> nlinarith

theorem mapIdx_getD (f : Nat → ℚ → ℚ) (l : List ℚ) (j : Nat)
    (hj : j < l.length) :
    (l.mapIdx f).getD j 0 = f j (l.getD j 0) := by
  induction l generalizing f j with
  | nil => simp at hj
  | cons a l ih =>
    cases j with
    | zero => simp [List.mapIdx_cons]
    | succ j =>
      simp only [List.mapIdx_cons, List.getD_cons_succ]
      exact ih _ j (by simpa using hj)

/-- In the interior case (`getFrameIndex` lands strictly before the last
frame and the located time is not an exact match) `getFrameAtTime` builds
the interpolated object. -/
theorem getFrameAtTime_interp_branch (frames : List Frame) (t : ℚ) (i : Nat)
    (hidx : getFrameIndex frames t = i) (hi1 : i + 1 < frames.length)
    (hne : (frames.getD i default).time ≠ t) :
    getFrameAtTime frames t =
      some (interpFrame (frames.getD i default)
        (frames.getD (i + 1) default) t) := by
  have hlen : frames.length ≠ 0 := by omega
  unfold getFrameAtTime
  rw [if_neg hlen, hidx, if_neg (by push_neg; exact ⟨by omega, hne⟩)]

/-- C2: for a query time strictly between two consecutive frame times on
a strictly ascending frame array, every scalar field of the interpolated
snapshot, and every element of its bands and chroma vectors, lies in the
closed interval spanned by the corresponding values of the two
surrounding frames. -/
theorem getFrameAtTime_between_bounds (frames : List Frame) (t : ℚ) (i : Nat)
    (hs : StrictlySorted frames) (hi1 : i + 1 < frames.length)
    (hlo : (frames.getD i default).time < t)
    (hhi : t < (frames.getD (i + 1) default).time)
    (_hbl : (frames.getD i default).bands.length =
      (frames.getD (i + 1) default).bands.length)
    (_hcl : (frames.getD i default).chroma.length =
      (frames.getD (i + 1) default).chroma.length) :
    ∃ g, getFrameAtTime frames t = some g ∧
      Between (frames.getD i default).time
        (frames.getD (i + 1) default).time g.time ∧
      Between (frames.getD i default).rms
        (frames.getD (i + 1) default).rms g.rms ∧
      Between (frames.getD i default).centroid
        (frames.getD (i + 1) default).centroid g.centroid ∧
      Between (frames.getD i default).centroid_hz
        (frames.getD (i + 1) default).centroid_hz g.centroid_hz ∧
      Between (frames.getD i default).contrast
        (frames.getD (i + 1) default).contrast g.contrast ∧
      Between (frames.getD i default).onset
        (frames.getD (i + 1) default).onset g.onset ∧
      Between (frames.getD i default).harmonic
        (frames.getD (i + 1) default).harmonic g.harmonic ∧
      Between (frames.getD i default).percussive
        (frames.getD (i + 1) default).percussive g.percussive ∧
      g.bands.length = (frames.getD i default).bands.length ∧
      (∀ j, j < g.bands.length →
        Between ((frames.getD i default).bands.getD j 0)
          ((frames.getD (i + 1) default).bands.getD j 0)
          (g.bands.getD j 0)) ∧
      g.chroma.length = (frames.getD i default).chroma.length ∧
      (∀ j, j < g.chroma.length →
        Between ((frames.getD i default).chroma.getD j 0)
          ((frames.getD (i + 1) default).chroma.getD j 0)
          (g.chroma.getD j 0)) := by
  set a := frames.getD i default with ha
  set b := frames.getD (i + 1) default with hb
  have hidx : getFrameIndex frames t = i :=
    getFrameIndex_between frames t i hs.sortedLE hi1 (le_of_lt hlo) hhi
  have heq := getFrameAtTime_interp_branch frames t i hidx hi1 (ne_of_lt hlo)
  have hd : 0 < b.time - a.time := by
    have := hs (i + 1) hi1 i (by omega)
    rw [← ha, ← hb] at this
    linarith
  set s := (t - a.time) / (b.time - a.time) with hsdef
  have hs0 : 0 ≤ s := div_nonneg (by linarith) (le_of_lt hd)
  have hs1 : s ≤ 1 := by
    rw [hsdef, div_le_one hd]
    linarith
  refine ⟨interpFrame a b t, heq, ?_, ?_, ?_, ?_, ?_, ?_, ?_, ?_, ?_, ?_, ?_, ?_⟩
  · constructor
    · exact le_trans (min_le_left _ _) (le_of_lt hlo)
    · exact le_trans (le_of_lt hhi) (le_max_right _ _)
  · exact lerp_between _ _ _ hs0 hs1
  · exact lerp_between _ _ _ hs0 hs1
  · exact lerp_between _ _ _ hs0 hs1
  · exact lerp_between _ _ _ hs0 hs1
  · exact lerp_between _ _ _ hs0 hs1
  · exact lerp_between _ _ _ hs0 hs1
  · exact lerp_between _ _ _ hs0 hs1
  · simp [interpFrame]
  · intro j hj
    have hjlen : j < a.bands.length := by
      simpa [interpFrame, List.length_mapIdx] using hj
    have := mapIdx_getD (fun k v => lerp v (b.bands.getD k 0) s) a.bands j hjlen
    simp only [interpFrame]
    rw [this]
    exact lerp_between _ _ _ hs0 hs1
  · simp [interpFrame]
  · intro j hj
    have hjlen : j < a.chroma.length := by
      simpa [interpFrame, List.length_mapIdx] using hj
    have := mapIdx_getD (fun k v => lerp v (b.chroma.getD k 0) s) a.chroma j hjlen
    simp only [interpFrame]
    rw [this]
    exact lerp_between _ _ _ hs0 hs1

theorem getFrameAtTime_between_bounds_witness :
    ∃ g, getFrameAtTime [frameA, frameB] 2 = some g ∧
      Between (([frameA, frameB] : List Frame).getD 0 default).time
        (([frameA, frameB] : List Frame).getD 1 default).time g.time ∧
      Between (([frameA, frameB] : List Frame).getD 0 default).rms
        (([frameA, frameB] : List Frame).getD 1 default).rms g.rms ∧
      Between (([frameA, frameB] : List Frame).getD 0 default).centroid
        (([frameA, frameB] : List Frame).getD 1 default).centroid g.centroid ∧
      Between (([frameA, frameB] : List Frame).getD 0 default).centroid_hz
        (([frameA, frameB] : List Frame).getD 1 default).centroid_hz
        g.centroid_hz ∧
      Between (([frameA, frameB] : List Frame).getD 0 default).contrast
        (([frameA, frameB] : List Frame).getD 1 default).contrast g.contrast ∧
      Between (([frameA, frameB] : List Frame).getD 0 default).onset
        (([frameA, frameB] : List Frame).getD 1 default).onset g.onset ∧
      Between (([frameA, frameB] : List Frame).getD 0 default).harmonic
        (([frameA, frameB] : List Frame).getD 1 default).harmonic g.harmonic ∧
      Between (([frameA, frameB] : List Frame).getD 0 default).percussive
        (([frameA, frameB] : List Frame).getD 1 default).percussive
        g.percussive ∧
      g.bands.length = (([frameA, frameB] : List Frame).getD 0 default).bands.length ∧
      (∀ j, j < g.bands.length →
        Between ((([frameA, frameB] : List Frame).getD 0 default).bands.getD j 0)
          ((([frameA, frameB] : List Frame).getD 1 default).bands.getD j 0)
          (g.bands.getD j 0)) ∧
      g.chroma.length = (([frameA, frameB] : List Frame).getD 0 default).chroma.length ∧
      (∀ j, j < g.chroma.length →
        Between ((([frameA, frameB] : List Frame).getD 0 default).chroma.getD j 0)
          ((([frameA, frameB] : List Frame).getD 1 default).chroma.getD j 0)
          (g.chroma.getD j 0)) :=
  getFrameAtTime_between_bounds [frameA, frameB] 2 0 (by decide) (by decide)
    (by decide) (by decide) (by decide) (by decide)

/-- C5 (amended): for a strictly sorted array of at least two frames and
a query time strictly before the first frame's time, the binary search
does return index 0, but `getFrameAtTime` does not clamp to the first
frame: it returns the interpolation object built from frames 0 and 1,
whose interpolation factor is strictly negative (linear extrapolation
backwards past the first sample). -/
theorem getFrameAtTime_before_first (frames : List Frame) (t : ℚ)
    (hs : StrictlySorted frames) (h2 : 2 ≤ frames.length)
    (hb : t < (frames.getD 0 default).time) :
    getFrameAtTime frames t =
      some (interpFrame (frames.getD 0 default) (frames.getD 1 default) t) ∧
    (t - (frames.getD 0 default).time) /
        ((frames.getD 1 default).time - (frames.getD 0 default).time) < 0 := by
  have hne : frames ≠ [] := by
    intro h; subst h; simp at h2
  have hidx : getFrameIndex frames t = 0 :=
    getFrameIndex_before frames t hs.sortedLE hne hb
  have heq := getFrameAtTime_interp_branch frames t 0 hidx (by omega)
    (ne_of_gt hb)
  have hd : 0 < (frames.getD 1 default).time - (frames.getD 0 default).time := by
    have := hs 1 (by omega) 0 (by omega)
    linarith
  exact ⟨heq, div_neg_of_neg_of_pos (by linarith) hd⟩

theorem getFrameAtTime_before_first_witness :
    getFrameAtTime [frameA, frameB] 0 =
      some (interpFrame (([frameA, frameB] : List Frame).getD 0 default)
        (([frameA, frameB] : List Frame).getD 1 default) 0) ∧
    ((0 : ℚ) - (([frameA, frameB] : List Frame).getD 0 default).time) /
        ((([frameA, frameB] : List Frame).getD 1 default).time -
          (([frameA, frameB] : List Frame).getD 0 default).time) < 0 :=
  getFrameAtTime_before_first [frameA, frameB] 0 (by decide) (by decide)
    (by decide)

/-- C5 (counterexample): `[frameA, frameB]` has strictly ascending times
`1 < 3` and the query time `0` is strictly before the first frame's time,
yet the result's `rms` is not `frameA`'s `rms` (it is the extrapolated
`-1/2`), so the function does not return the first frame verbatim. -/
theorem getFrameAtTime_before_first_counterexample :
    StrictlySorted [frameA, frameB] ∧
    2 ≤ ([frameA, frameB] : List Frame).length ∧
    (0 : ℚ) < frameA.time ∧
    (getFrameAtTime [frameA, frameB] 0).map Frame.rms ≠ some frameA.rms := by
  refine ⟨by decide, by decide, by decide, ?_⟩
  norm_num [getFrameAtTime, getFrameIndex, searchGo, interpFrame, lerp,
    frameA, frameB]

/-- C4 (amended): for a sorted non-empty frame array, the returned
snapshot's `time` field equals the query time `t` whenever the result is
built by interpolation (and at an exact match, where the stored time
coincides with `t`); in the remaining case the result is the last frame
returned verbatim, carrying the last frame's stored time rather than
`t`. -/
theorem getFrameAtTime_time_field (frames : List Frame) (t : ℚ)
    (hs : SortedLE frames) (g : Frame)
    (hg : getFrameAtTime frames t = some g) :
    g.time = t ∨ g = frames.getD (frames.length - 1) default := by
  by_cases hlen : frames.length = 0
  · unfold getFrameAtTime at hg
    rw [if_pos hlen] at hg
    exact absurd hg (by simp)
  · obtain ⟨hb1, hb2, hb3⟩ := getFrameIndex_spec frames t hs
      (by intro h; subst h; simp at hlen)
    simp only [getFrameAtTime] at hg
    rw [if_neg hlen] at hg
    split at hg
    next hcond =>
      injection hg with hg
      rcases hcond with hc | hc
      · right
        have heq : getFrameIndex frames t = frames.length - 1 := by omega
        rw [← hg, heq]
      · left
        rw [← hg]
        exact hc
    next hcond =>
      injection hg with hg
      left
      rw [← hg]
      rfl

theorem getFrameAtTime_time_field_witness :
    SortedLE [frameA] ∧ getFrameAtTime [frameA] 5 = some frameA ∧
      (frameA.time = 5 ∨ frameA = ([frameA] : List Frame).getD 0 default) :=
  ⟨by decide, by decide,
    getFrameAtTime_time_field [frameA] 5 (by decide) frameA (by decide)⟩

/-- C4 (counterexample): on the one-frame array `[frameA]` with query
time `5`, the snapshot branch returns `frameA` verbatim, so the returned
`time` field is `frameA`'s stored time `1`, not the query time `5`. -/
theorem getFrameAtTime_time_field_counterexample :
    (getFrameAtTime [frameA] 5).map Frame.time = some frameA.time ∧
      frameA.time ≠ 5 := by
  exact ⟨by decide, by decide⟩

/-- One invocation of the closure returned by `createSmoother(factor)`:
the internal `value` starts as `null` (here `none`); the first call adopts
the target verbatim, later calls move by `lerp(value, target, factor)`.
The pair is (returned value, updated internal state); the source assigns
`value` and returns it, so the two components coincide. -/
def smootherStep (factor : ℚ) : Option ℚ → ℚ → ℚ × Option ℚ
  | none, target => (target, some target)
  | some value, target => (lerp value target factor, some (lerp value target factor))

/-- Feeding a list of targets to a smoother, collecting the outputs. -/
def runSmoother (factor : ℚ) : Option ℚ → List ℚ → List ℚ
  | _, [] => []
  | st, target :: rest =>
    (smootherStep factor st target).1 ::
      runSmoother factor (smootherStep factor st target).2 rest

/-- C7: a fresh smoother returns its very first target verbatim,
regardless of the responsiveness; every subsequent invocation returns
`prev + (target - prev) * r` where `prev` is the previous return value
(the state stored after a call is exactly the value returned). -/
theorem createSmoother_step (r x : ℚ) (_h0 : 0 < r) (_h1 : r ≤ 1) :
    (smootherStep r none x).1 = x ∧
    (∀ prev, (smootherStep r (some prev) x).1 = prev + (x - prev) * r) ∧
    (∀ st, (smootherStep r st x).2 = some ((smootherStep r st x).1)) := by
  refine ⟨rfl, fun prev => rfl, fun st => ?_⟩
  cases st <;> rfl

theorem createSmoother_step_witness :
    (0 : ℚ) < 1 ∧ (1 : ℚ) ≤ 1 ∧
    ((smootherStep 1 none 3).1 = 3 ∧
     (∀ prev, (smootherStep 1 (some prev) 3).1 = prev + (3 - prev) * 1) ∧
     (∀ st, (smootherStep 1 st 3).2 = some ((smootherStep 1 st 3).1))) :=
  ⟨by decide, by decide, createSmoother_step 1 3 (by decide) (by decide)⟩

theorem runSmoother_const (r x : ℚ) (n : Nat) :
    runSmoother r (some x) (List.replicate n x) = List.replicate n x := by
  induction n with
  | zero => rfl
  | succ n ih =>
    have hx : lerp x x r = x := by unfold lerp; ring
    simp only [List.replicate_succ, runSmoother, smootherStep, hx]
    rw [ih]

/-- C8: with responsiveness `r` in `(0, 1]`, one smoothing step contracts
the distance to the target by exactly the factor `1 - r` (so the distance
is non-increasing step over step), and a fresh smoother fed a constant
target outputs that target from the very first call on: every output of
the run is the target itself, hence within any tolerance after a bounded
number of iterations. -/
theorem createSmoother_converges (r x : ℚ) (h0 : 0 < r) (h1 : r ≤ 1) :
    (∀ prev, |(smootherStep r (some prev) x).1 - x| = (1 - r) * |prev - x|) ∧
    (∀ prev, |(smootherStep r (some prev) x).1 - x| ≤ |prev - x|) ∧
    (∀ n, ∀ y ∈ runSmoother r none (List.replicate (n + 1) x), y = x) := by
  have key : ∀ prev : ℚ,
      (smootherStep r (some prev) x).1 - x = (1 - r) * (prev - x) := by
    intro prev
    show lerp prev x r - x = (1 - r) * (prev - x)
    unfold lerp
    ring
  have habs : ∀ prev : ℚ,
      |(smootherStep r (some prev) x).1 - x| = (1 - r) * |prev - x| := by
    intro prev
    rw [key prev, abs_mul, abs_of_nonneg (by linarith : (0:ℚ) ≤ 1 - r)]
  refine ⟨habs, fun prev => ?_, fun n y hy => ?_⟩
  · rw [habs prev]
    exact mul_le_of_le_one_left (abs_nonneg _) (by linarith)
  · have hrun : runSmoother r none (List.replicate (n + 1) x) =
        x :: List.replicate n x := by
      simp only [List.replicate_succ, runSmoother, smootherStep]
      rw [runSmoother_const]
    rw [hrun] at hy
    rcases List.mem_cons.mp hy with h | h
    · exact h
    · exact List.eq_of_mem_replicate h

theorem createSmoother_converges_witness :
    (0 : ℚ) < 1 ∧ (1 : ℚ) ≤ 1 ∧
    ((∀ prev, |(smootherStep 1 (some prev) 5).1 - 5| = (1 - 1) * |prev - 5|) ∧
     (∀ prev, |(smootherStep 1 (some prev) 5).1 - 5| ≤ |prev - 5|) ∧
     (∀ n, ∀ y ∈ runSmoother 1 none (List.replicate (n + 1) 5), y = 5)) :=
  ⟨by decide, by decide, createSmoother_converges 1 5 (by decide) (by decide)⟩

/-- The `for` loop of `getDominantPitch`: `i` is the index of the head of
`rest` in the original chroma list, `maxIdx`/`maxVal` the best so far;
the update fires only on a strict improvement (`chroma[i] > maxVal`), so
ties keep the earlier index. -/
def domAux : List ℚ → Nat → Nat → ℚ → Nat
  | [], _, maxIdx, _ => maxIdx
  | v :: rest, i, maxIdx, maxVal =>
    if maxVal < v then domAux rest (i + 1) i v
    else domAux rest (i + 1) maxIdx maxVal

/-- `getDominantPitch(chroma)`: starts from `maxIdx = 0`,
`maxVal = chroma[0]` and scans from index 1 (returns 0 for an empty
list, as the JS loop never fires there). -/
def getDominantPitch : List ℚ → Nat
  | [] => 0
  | v :: rest => domAux rest 1 0 v

theorem domAux_spec (c : List ℚ) :
    ∀ rest i maxIdx maxVal, maxIdx < i → c.length = i + rest.length →
      (∀ k, rest.getD k 0 = c.getD (i + k) 0) →
      c.getD maxIdx 0 = maxVal →
      (∀ j, j < i → c.getD j 0 ≤ maxVal) →
      (∀ j, j < maxIdx → c.getD j 0 < maxVal) →
      domAux rest i maxIdx maxVal < c.length ∧
      (∀ j, j < c.length → c.getD j 0 ≤ c.getD (domAux rest i maxIdx maxVal) 0) ∧
      (∀ j, j < domAux rest i maxIdx maxVal →
        c.getD j 0 < c.getD (domAux rest i maxIdx maxVal) 0) := by
  intro rest
  induction rest with
  | nil =>
    intro i maxIdx maxVal hlt hlen _hidx hval hle hstrict
    simp only [domAux]
    have hilen : c.length = i := by simpa using hlen
    refine ⟨by omega, ?_, ?_⟩
    · intro j hj
      rw [hval]
      exact hle j (by omega)
    · intro j hj
      rw [hval]
      exact hstrict j hj
  | cons v rest ih =>
    intro i maxIdx maxVal hlt hlen hidx hval hle hstrict
    have hv : c.getD i 0 = v := by
      have h0 := hidx 0
      rw [List.getD_cons_zero] at h0
      simpa using h0.symm
    have hidx' : ∀ k, rest.getD k 0 = c.getD (i + 1 + k) 0 := by
      intro k
      have := hidx (k + 1)
      simpa [Nat.add_assoc, Nat.add_comm 1 k] using this
    have hlen' : c.length = i + 1 + rest.length := by
      simp at hlen
      omega
    simp only [domAux]
    by_cases hcmp : maxVal < v
    · rw [if_pos hcmp]
      refine ih (i + 1) i v (by omega) hlen' hidx' hv ?_ ?_
      · intro j hj
        rcases Nat.lt_or_ge j i with hji | hji
        · exact le_of_lt (lt_of_le_of_lt (hle j hji) hcmp)
        · have : j = i := by omega
          subst this
          rw [hv]
      · intro j hj
        exact lt_of_le_of_lt (hle j hj) hcmp
    · rw [if_neg hcmp]
      push_neg at hcmp
      refine ih (i + 1) maxIdx maxVal (by omega) hlen' hidx' hval ?_ hstrict
      intro j hj
      rcases Nat.lt_or_ge j i with hji | hji
      · exact hle j hji
      · have : j = i := by omega
        subst this
        rw [hv]
        exact hcmp

/-- C9: on a non-empty chroma list, `getDominantPitch` returns an
in-range index holding a maximal value, and every strictly earlier index
holds a strictly smaller value — the argmax with ties broken towards the
lowest index. -/
theorem getDominantPitch_argmax (c : List ℚ) (hne : c ≠ []) :
    getDominantPitch c < c.length ∧
    (∀ j, j < c.length → c.getD j 0 ≤ c.getD (getDominantPitch c) 0) ∧
    (∀ j, j < getDominantPitch c →
      c.getD j 0 < c.getD (getDominantPitch c) 0) := by
  cases c with
  | nil => exact absurd rfl hne
  | cons v rest =>
    have h := domAux_spec (v :: rest) rest 1 0 v (by omega)
      (by simp [Nat.add_comm])
      (by intro k; rw [Nat.add_comm 1 k, List.getD_cons_succ]) (by simp) ?_ ?_
    · exact h
    · intro j hj
      have : j = 0 := by omega
      subst this
      simp
    · intro j hj
      omega

theorem getDominantPitch_argmax_witness :
    ([(1:ℚ)/10, 9/10, 2/10, 0, 0, 0, 0, 0, 0, 0, 0, 0] : List ℚ) ≠ [] ∧
    getDominantPitch [(1:ℚ)/10, 9/10, 2/10, 0, 0, 0, 0, 0, 0, 0, 0, 0] = 1 ∧
    (getDominantPitch [(1:ℚ)/10, 9/10, 2/10, 0, 0, 0, 0, 0, 0, 0, 0, 0] <
        ([(1:ℚ)/10, 9/10, 2/10, 0, 0, 0, 0, 0, 0, 0, 0, 0] : List ℚ).length ∧
      (∀ j, j < ([(1:ℚ)/10, 9/10, 2/10, 0, 0, 0, 0, 0, 0, 0, 0, 0] : List ℚ).length →
        ([(1:ℚ)/10, 9/10, 2/10, 0, 0, 0, 0, 0, 0, 0, 0, 0] : List ℚ).getD j 0 ≤
          ([(1:ℚ)/10, 9/10, 2/10, 0, 0, 0, 0, 0, 0, 0, 0, 0] : List ℚ).getD
            (getDominantPitch [(1:ℚ)/10, 9/10, 2/10, 0, 0, 0, 0, 0, 0, 0, 0, 0]) 0) ∧
      (∀ j, j < getDominantPitch [(1:ℚ)/10, 9/10, 2/10, 0, 0, 0, 0, 0, 0, 0, 0, 0] →
        ([(1:ℚ)/10, 9/10, 2/10, 0, 0, 0, 0, 0, 0, 0, 0, 0] : List ℚ).getD j 0 <
          ([(1:ℚ)/10, 9/10, 2/10, 0, 0, 0, 0, 0, 0, 0, 0, 0] : List ℚ).getD
            (getDominantPitch [(1:ℚ)/10, 9/10, 2/10, 0, 0, 0, 0, 0, 0, 0, 0, 0]) 0)) :=
  ⟨by simp, by norm_num [getDominantPitch, domAux],
    getDominantPitch_argmax _ (by simp)⟩

/-- Association-list lookup for the object-smoother state and for input
objects (JS property access `smoothers[key]` / `obj[key]`). -/
def lookupA : List (String × ℚ) → String → Option ℚ
  | [], _ => none
  | (k, v) :: rest, key => if k = key then some v else lookupA rest key

/-- Insert-or-update for the object-smoother state
(JS assignment `smoothers[key] = ...`). -/
def upsert : List (String × ℚ) → String → ℚ → List (String × ℚ)
  | [], key, v => [(key, v)]
  | (k, w) :: rest, key, v =>
    if k = key then (k, v) :: rest else (k, w) :: upsert rest key v

/-- `createObjectSmoother`'s `defaultFactor = 0.15`. -/
def defaultFactor : ℚ := 15 / 100

/-- The per-key factor `factors[key] || defaultFactor`: JS `||` takes the
default when the configured entry is absent or falsy — and the only falsy
rational is `0`, so a configured factor of `0` also yields the default. -/
def effFactor (factors : String → Option ℚ) (key : String) : ℚ :=
  match factors key with
  | none => defaultFactor
  | some f => if f = 0 then defaultFactor else f

/-- One iteration of the `for (const key in obj)` loop of the function
returned by `createObjectSmoother`: a key absent from the state stands
for a lazily not-yet-created smoother (equivalently, a smoother whose
internal `value` is still null — the smoother is created and invoked in
the same iteration, so a created smoother always holds a value), and the
smoother for `key` runs one `createSmoother` step with the key's
effective factor.  Since `factors` is captured immutably by the closure,
consulting `factors[key] || defaultFactor` at every call coincides with
the factor captured when the smoother was first created. -/
def objStep (factors : String → Option ℚ) (st : List (String × ℚ))
    (key : String) (target : ℚ) : ℚ × List (String × ℚ) :=
  ((smootherStep (effFactor factors key) (lookupA st key) target).1,
   upsert st key (smootherStep (effFactor factors key) (lookupA st key) target).1)

/-- The function returned by `createObjectSmoother`, applied to one input
object (as an association list in iteration order): returns the `result`
object and the updated `smoothers` state. -/
def smoothObj (factors : String → Option ℚ) :
    List (String × ℚ) → List (String × ℚ) →
    List (String × ℚ) × List (String × ℚ)
  | st, [] => ([], st)
  | st, (key, target) :: rest =>
    ((key, (objStep factors st key target).1) ::
       (smoothObj factors (objStep factors st key target).2 rest).1,
     (smoothObj factors (objStep factors st key target).2 rest).2)

theorem lookupA_upsert_self (st : List (String × ℚ)) (key : String) (v : ℚ) :
    lookupA (upsert st key v) key = some v := by
  induction st with
  | nil => simp [upsert, lookupA]
  | cons p rest ih =>
    obtain ⟨k, w⟩ := p
    by_cases hk : k = key
    · subst hk
      simp [upsert, lookupA]
    · simp only [upsert, lookupA, if_neg hk]
      exact ih

theorem lookupA_upsert_other (st : List (String × ℚ)) (key key2 : String)
    (v : ℚ) (h : key ≠ key2) :
    lookupA (upsert st key v) key2 = lookupA st key2 := by
  induction st with
  | nil => simp [upsert, lookupA, h]
  | cons p rest ih =>
    obtain ⟨k, w⟩ := p
    by_cases hk : k = key
    · subst hk
      simp [upsert, lookupA, if_neg h]
    · simp only [upsert, lookupA, if_neg hk]
      by_cases hk2 : k = key2
      · simp [if_pos hk2]
      · simp only [if_neg hk2]
        exact ih

theorem lookupA_eq_none (l : List (String × ℚ)) (key : String)
    (h : key ∉ l.map Prod.fst) : lookupA l key = none := by
  induction l with
  | nil => rfl
  | cons p rest ih =>
    obtain ⟨k, w⟩ := p
    rw [List.map_cons, List.mem_cons] at h
    push_neg at h
    simp only [lookupA, if_neg (Ne.symm h.1)]
    exact ih h.2

theorem smoothObj_lookup (factors : String → Option ℚ) (k : String) :
    ∀ (obj st : List (String × ℚ)), (obj.map Prod.fst).Nodup →
      (lookupA (smoothObj factors st obj).2 k =
        match lookupA obj k with
        | none => lookupA st k
        | some v =>
          some ((smootherStep (effFactor factors k) (lookupA st k) v).1)) ∧
      (lookupA (smoothObj factors st obj).1 k =
        match lookupA obj k with
        | none => none
        | some v =>
          some ((smootherStep (effFactor factors k) (lookupA st k) v).1)) := by
  intro obj
  induction obj with
  | nil =>
    intro st _
    exact ⟨rfl, rfl⟩
  | cons p rest ih =>
    obtain ⟨key, target⟩ := p
    intro st hnodup
    rw [List.map_cons, List.nodup_cons] at hnodup
    obtain ⟨hkey, hnd⟩ := hnodup
    obtain ⟨ihs, ihr⟩ := ih (objStep factors st key target).2 hnd
    by_cases hk : key = k
    · subst hk
      have hrest : lookupA rest key = none := lookupA_eq_none rest key hkey
      rw [hrest] at ihs ihr
      have hnew : lookupA (objStep factors st key target).2 key =
          some ((smootherStep (effFactor factors key) (lookupA st key)
            target).1) := by
        simp only [objStep]
        exact lookupA_upsert_self st key _
      constructor
      · simp only [smoothObj, lookupA, if_pos rfl]
        rw [ihs, hnew]
        simp
      · simp only [smoothObj, lookupA, if_pos rfl]
        simp [objStep]
    · have hst : lookupA (objStep factors st key target).2 k =
          lookupA st k := by
        simp only [objStep]
        exact lookupA_upsert_other st key k _ hk
      rw [hst] at ihs ihr
      constructor
      · simp only [smoothObj, lookupA, if_neg hk]
        exact ihs
      · simp only [smoothObj, lookupA, if_neg hk]
        exact ihr

/-- C10: in the aggregate smoother of `createObjectSmoother(factors)`,
each key's state is an independent single-pole `createSmoother` smoother:
processing one (duplicate-free) input object updates the state at key `k`
with exactly one `createSmoother` step on `k`'s own value — and leaves it
untouched (in particular, still uncreated) when the object has no entry
for `k`; the responsiveness used for a key with no entry in `factors` is
the default `0.15`, and a configured factor of `0` is falsy in JS, so it
too yields the default `0.15` — a per-key responsiveness of zero cannot
be configured. -/
theorem createObjectSmoother_spec (factors : String → Option ℚ) (k : String)
    (st obj : List (String × ℚ)) (hnodup : (obj.map Prod.fst).Nodup) :
    (factors k = none → effFactor factors k = 15 / 100) ∧
    (factors k = some 0 → effFactor factors k = 15 / 100) ∧
    (lookupA (smoothObj factors st obj).2 k =
      match lookupA obj k with
      | none => lookupA st k
      | some v =>
        some ((smootherStep (effFactor factors k) (lookupA st k) v).1)) ∧
    (lookupA (smoothObj factors st obj).1 k =
      match lookupA obj k with
      | none => none
      | some v =>
        some ((smootherStep (effFactor factors k) (lookupA st k) v).1)) := by
  obtain ⟨hs, hr⟩ := smoothObj_lookup factors k obj st hnodup
  refine ⟨?_, ?_, hs, hr⟩
  · intro h
    simp [effFactor, h, defaultFactor]
  · intro h
    simp [effFactor, h, defaultFactor]

theorem createObjectSmoother_spec_witness :
    ((([("a", (2:ℚ)), ("b", 3)] : List (String × ℚ)).map Prod.fst).Nodup) ∧
    ((fun s => if s = "b" then some (0:ℚ) else none) "a" = none →
      effFactor (fun s => if s = "b" then some (0:ℚ) else none) "a" = 15 / 100) ∧
    ((fun s => if s = "b" then some (0:ℚ) else none) "a" = some 0 →
      effFactor (fun s => if s = "b" then some (0:ℚ) else none) "a" = 15 / 100) ∧
    (lookupA (smoothObj (fun s => if s = "b" then some (0:ℚ) else none) []
        [("a", 2), ("b", 3)]).2 "a" =
      match lookupA [("a", (2:ℚ)), ("b", 3)] "a" with
      | none => lookupA [] "a"
      | some v =>
        some ((smootherStep
          (effFactor (fun s => if s = "b" then some (0:ℚ) else none) "a")
          (lookupA [] "a") v).1)) ∧
    (lookupA (smoothObj (fun s => if s = "b" then some (0:ℚ) else none) []
        [("a", 2), ("b", 3)]).1 "a" =
      match lookupA [("a", (2:ℚ)), ("b", 3)] "a" with
      | none => none
      | some v =>
        some ((smootherStep
          (effFactor (fun s => if s = "b" then some (0:ℚ) else none) "a")
          (lookupA [] "a") v).1)) :=
  ⟨by simp, createObjectSmoother_spec (fun s => if s = "b" then some (0:ℚ) else none)
    "a" [] [("a", 2), ("b", 3)] (by simp)⟩

end AudioReactive
